import Mathlib

/-!
Verification of the STM32 UART shell firmware core against its
natural-language specification.

The development shallowly embeds the C sources:
  * `src/Core/Src/Utilities/ring_buffer.c`  — circular byte buffer
  * `src/Core/Src/Drivers/uart_driver.c`    — interrupt-driven transport
  * `src/Core/Src/APIs/shell.c`             — line editor / history
  * `src/Core/Src/APIs/cli_parser.c`        — command dispatch / completion

Machine bytes are modelled as `Nat` (values are only ever in `[0,256)` and no
arithmetic overflows occur on them), C arrays as Lean lists, and nullable
pointers as `Option`; a dereference of a null pointer is modelled as
`Except.error`.
-/

set_option maxHeartbeats 1000000
set_option maxRecDepth 8192

/-! ## Ring buffer (`ring_buffer.c`) -/

/-- State of `ring_buffer_t` (ring_buffer.h).  `buffer` is the backing byte
array (fixed length = `capacity` once initialized). -/
structure ring_buffer_t where
  buffer : List Nat
  head : Nat
  tail : Nat
  capacity : Nat
  full : Bool
deriving DecidableEq, Repr

/-- Model of `ring_buffer_init` (ring_buffer.c:14-21): fails on zero size,
resets head/tail/full.  The C `buf` pointer becomes the backing list. -/
def ring_buffer_init (buf : List Nat) (size : Nat) : Option ring_buffer_t :=
  if size = 0 then none
  else some { buffer := buf, head := 0, tail := 0, capacity := size, full := false }

/-- Model of `ring_buffer_is_empty` (ring_buffer.c:52-57). -/
def ring_buffer_is_empty (rb : ring_buffer_t) : Bool :=
  !rb.full && rb.head == rb.tail

/-- Model of `ring_buffer_is_full` (ring_buffer.c:59-64). -/
def ring_buffer_is_full (rb : ring_buffer_t) : Bool :=
  rb.full

/-- Model of `ring_buffer_push` (ring_buffer.c:23-39): writes at head, advances head
modulo capacity, advances tail too when already full, sets `full` when the
indices meet.  Always returns `true` (the second component). -/
def ring_buffer_push (rb : ring_buffer_t) (data : Nat) : ring_buffer_t × Bool :=
  let buffer := rb.buffer.set rb.head data
  let head := (rb.head + 1) % rb.capacity
  let tail := if rb.full then (rb.tail + 1) % rb.capacity else rb.tail
  let full := if head == tail then true else rb.full
  ({ buffer := buffer, head := head, tail := tail, capacity := rb.capacity, full := full },
   true)

/-- Model of `ring_buffer_pop` (ring_buffer.c:41-50): `none` when empty, otherwise
reads at tail, advances tail, clears `full`. -/
def ring_buffer_pop (rb : ring_buffer_t) : ring_buffer_t × Option Nat :=
  if ring_buffer_is_empty rb then (rb, none)
  else ({ rb with tail := (rb.tail + 1) % rb.capacity, full := false },
        some (rb.buffer.getD rb.tail 0))

/-- Model of `ring_buffer_get_count` (ring_buffer.c:85-102). -/
def ring_buffer_get_count (rb : ring_buffer_t) : Nat :=
  if rb.full then rb.capacity
  else if rb.head ≥ rb.tail then rb.head - rb.tail
  else rb.capacity + rb.head - rb.tail

/-- Model of `ring_buffer_get_capacity` (ring_buffer.c:77-83). -/
def ring_buffer_get_capacity (rb : ring_buffer_t) : Nat :=
  rb.capacity

/-- Pushing a whole list of bytes in order (a loop of `ring_buffer_push`
calls, e.g. uart_driver.c:79-81). -/
def ring_buffer_push_list (rb : ring_buffer_t) (bs : List Nat) : ring_buffer_t :=
  bs.foldl (fun r b => (ring_buffer_push r b).1) rb

/-- Fueled drain loop: repeatedly pop until empty. -/
def ring_buffer_drain_aux : Nat → ring_buffer_t → List Nat
  | 0, _ => []
  | fuel + 1, rb =>
    match ring_buffer_pop rb with
    | (_, none) => []
    | (rb', some b) => b :: ring_buffer_drain_aux fuel rb'

/-- Draining a ring buffer by repeated `ring_buffer_pop` until it reports
empty (`ring_buffer_get_count` pops always suffice). -/
def ring_buffer_drain (rb : ring_buffer_t) : List Nat :=
  ring_buffer_drain_aux (ring_buffer_get_count rb) rb

/-- Structural well-formedness of a ring buffer: backing store sized to the
capacity, indices in range, positive capacity.  Established by
`ring_buffer_init` and preserved by push/pop. -/
def rb_valid (rb : ring_buffer_t) : Prop :=
  rb.buffer.length = rb.capacity ∧ rb.head < rb.capacity ∧
    rb.tail < rb.capacity ∧ 0 < rb.capacity ∧
    (rb.full = true → rb.head = rb.tail)

instance (rb : ring_buffer_t) : Decidable (rb_valid rb) := by
  unfold rb_valid
  infer_instance

/-- Abstract FIFO contents of a ring buffer: the `ring_buffer_get_count`
bytes starting at `tail`, oldest first. -/
def rb_contents (rb : ring_buffer_t) : List Nat :=
  (List.range (ring_buffer_get_count rb)).map
    (fun i => rb.buffer.getD ((rb.tail + i) % rb.capacity) 0)

theorem rb_contents_length (rb : ring_buffer_t) :
    (rb_contents rb).length = ring_buffer_get_count rb := by
  simp [rb_contents]

theorem rb_count_le (rb : ring_buffer_t) (h : rb_valid rb) :
    ring_buffer_get_count rb ≤ rb.capacity := by
  obtain ⟨_, hh, ht, hc, _⟩ := h
  simp only [ring_buffer_get_count]
  split
  · exact Nat.le_refl _
  · split <;> omega

theorem rb_count_lt_of_not_full (rb : ring_buffer_t) (h : rb_valid rb)
    (hf : rb.full = false) : ring_buffer_get_count rb < rb.capacity := by
  obtain ⟨_, hh, ht, hc, _⟩ := h
  unfold ring_buffer_get_count
  rw [if_neg (by simp [hf])]
  split <;> omega

theorem rb_count_full (rb : ring_buffer_t) (hf : rb.full = true) :
    ring_buffer_get_count rb = rb.capacity := by
  simp [ring_buffer_get_count, hf]

theorem rb_push_valid (rb : ring_buffer_t) (b : Nat) (h : rb_valid rb) :
    rb_valid (ring_buffer_push rb b).1 := by
  obtain ⟨hlen, hh, ht, hc, hft⟩ := h
  refine ⟨by simpa [ring_buffer_push] using hlen, ?_, ?_, hc, ?_⟩
  · simpa [ring_buffer_push] using Nat.mod_lt _ hc
  · simp only [ring_buffer_push]
    split
    · exact Nat.mod_lt _ hc
    · exact ht
  · simp only [ring_buffer_push]
    cases hfull : rb.full with
    | false =>
      simp only [hfull, Bool.false_eq_true, if_false]
      intro hcond
      split at hcond
      · next hbeq => simpa using hbeq
      · exact absurd hcond (by simp)
    | true =>
      simp only [hfull, if_true]
      intro _
      rw [hft hfull]

theorem rb_pop_valid (rb : ring_buffer_t) (h : rb_valid rb) :
    rb_valid (ring_buffer_pop rb).1 := by
  obtain ⟨hlen, hh, ht, hc, hft⟩ := h
  simp only [ring_buffer_pop]
  split
  · exact ⟨hlen, hh, ht, hc, hft⟩
  · exact ⟨hlen, hh, Nat.mod_lt _ hc, hc, by simp⟩

/-! ### List access helper lemmas (for `getD`, mirrors of C array indexing) -/

theorem rb_getD_lt (l : List Nat) (i : Nat) (h : i < l.length) : l.getD i 0 = l[i] := by
  simp [List.getD_eq_getElem?_getD, List.getElem?_eq_getElem h]

theorem rb_getD_set_self (l : List Nat) (i a : Nat) (h : i < l.length) :
    (l.set i a).getD i 0 = a := by
  rw [rb_getD_lt _ _ (by simpa using h)]
  simp [List.getElem_set, h]

theorem rb_getD_set_ne (l : List Nat) (i j a : Nat) (h : i ≠ j) :
    (l.set i a).getD j 0 = l.getD j 0 := by
  rw [List.getD_eq_getElem?_getD, List.getElem?_set_ne h, ← List.getD_eq_getElem?_getD]

theorem list_ext_getD (l1 l2 : List Nat) (hlen : l1.length = l2.length)
    (h : ∀ i, i < l1.length → l1.getD i 0 = l2.getD i 0) : l1 = l2 := by
  refine List.ext_getElem hlen fun i h1 h2 => ?_
  have hi := h i h1
  rwa [rb_getD_lt _ _ h1, rb_getD_lt _ _ h2] at hi

theorem getD_map_range (F : Nat → Nat) (n i : Nat) (h : i < n) :
    ((List.range n).map F).getD i 0 = F i := by
  rw [rb_getD_lt _ _ (by simpa using h)]
  simp [h]

theorem rb_getD_append_left (l1 l2 : List Nat) (i : Nat) (h : i < l1.length) :
    (l1 ++ l2).getD i 0 = l1.getD i 0 := by
  rw [rb_getD_lt _ _ (by simp; omega), rb_getD_lt _ _ h]
  simp [List.getElem_append, h]

theorem rb_getD_append_right (l1 l2 : List Nat) (i : Nat) (h1 : l1.length ≤ i)
    (h2 : i < l1.length + l2.length) :
    (l1 ++ l2).getD i 0 = l2.getD (i - l1.length) 0 := by
  rw [rb_getD_lt _ _ (by simp; omega), rb_getD_lt _ _ (by omega)]
  simp [List.getElem_append, Nat.not_lt.mpr h1]

theorem rb_getD_drop (l : List Nat) (n i : Nat) (h : n + i < l.length) :
    (l.drop n).getD i 0 = l.getD (n + i) 0 := by
  rw [rb_getD_lt _ _ (by simp; omega), rb_getD_lt _ _ h]
  simp

/-- Reduction of a modulus of a value below twice the modulus. -/
theorem mod_two_cases {a N : Nat} (_hN : 0 < N) (ha : a < 2 * N) :
    a % N = if a < N then a else a - N := by
  split
  · exact Nat.mod_eq_of_lt ‹_›
  · rw [Nat.mod_eq_sub_mod (by omega)]
    exact Nat.mod_eq_of_lt (by omega)

theorem rb_contents_getD (rb : ring_buffer_t) (i : Nat)
    (h : i < ring_buffer_get_count rb) :
    (rb_contents rb).getD i 0 = rb.buffer.getD ((rb.tail + i) % rb.capacity) 0 := by
  simp only [rb_contents]
  exact getD_map_range _ _ _ h

/-! ### FIFO refinement of push and pop -/

theorem rb_count_mk_false (buf : List Nat) (hd tl cap : Nat) :
    ring_buffer_get_count
      { buffer := buf, head := hd, tail := tl, capacity := cap, full := false } =
      if hd ≥ tl then hd - tl else cap + hd - tl := by
  simp [ring_buffer_get_count]

/-- A `ring_buffer_push` refines the overwrite-on-full queue: appended when
there is room, dropping the oldest byte first when full. -/
theorem rb_push_contents (rb : ring_buffer_t) (b : Nat) (h : rb_valid rb) :
    rb_contents (ring_buffer_push rb b).1 =
      (if rb.full then (rb_contents rb).drop 1 else rb_contents rb) ++ [b] := by
  obtain ⟨hlen, hh, ht, hc, hft⟩ := h
  cases hfull : rb.full with
  | true =>
    have hht : rb.head = rb.tail := hft hfull
    have hpush : (ring_buffer_push rb b).1 =
        { buffer := rb.buffer.set rb.head b, head := (rb.head + 1) % rb.capacity,
          tail := (rb.head + 1) % rb.capacity, capacity := rb.capacity, full := true } := by
      simp [ring_buffer_push, hfull, hht]
    have hcount : ring_buffer_get_count rb = rb.capacity := rb_count_full rb hfull
    rw [hpush, if_pos (rfl : (true : Bool) = true)]
    have hclen : (rb_contents rb).length = rb.capacity := by
      rw [rb_contents_length, hcount]
    refine list_ext_getD _ _ ?_ ?_
    · rw [rb_contents_length, rb_count_full _ rfl]
      simp only [List.length_append, List.length_drop, List.length_singleton, hclen]
      omega
    · intro i hi
      have hiN : i < rb.capacity := by
        rw [rb_contents_length, rb_count_full _ rfl] at hi
        exact hi
      have hLHS : (rb_contents
          { buffer := rb.buffer.set rb.head b, head := (rb.head + 1) % rb.capacity,
            tail := (rb.head + 1) % rb.capacity, capacity := rb.capacity,
            full := true }).getD i 0 =
          (rb.buffer.set rb.head b).getD ((rb.head + 1 + i) % rb.capacity) 0 := by
        rw [rb_contents_getD _ i (by rw [rb_count_full _ rfl]; exact hiN)]
        simp [Nat.mod_add_mod]
      rw [hLHS]
      rcases Nat.lt_or_ge i (rb.capacity - 1) with hilt | hige
      · -- interior positions: unchanged cells, shifted by one
        have hne : rb.head ≠ (rb.head + 1 + i) % rb.capacity := by
          have hm := mod_two_cases hc (show rb.head + 1 + i < 2 * rb.capacity by omega)
          split at hm <;> omega
        rw [rb_getD_set_ne _ _ _ _ hne]
        rw [rb_getD_append_left _ _ _ (by simp only [List.length_drop, hclen]; omega)]
        rw [rb_getD_drop _ _ _ (by rw [hclen]; omega)]
        rw [rb_contents_getD _ _ (by rw [rb_count_full _ hfull]; omega)]
        rw [hht]
        have harg : rb.tail + 1 + i = rb.tail + (1 + i) := by omega
        rw [harg]
      · -- last position: the newly written byte
        have hieq : i = rb.capacity - 1 := by omega
        have hmod : (rb.head + 1 + i) % rb.capacity = rb.head := by
          have hm := mod_two_cases hc (show rb.head + 1 + i < 2 * rb.capacity by omega)
          split at hm <;> omega
        rw [hmod, rb_getD_set_self _ _ _ (by omega)]
        rw [rb_getD_append_right _ _ _ (by simp only [List.length_drop, hclen]; omega)
          (by simp only [List.length_append, List.length_drop, List.length_singleton, hclen]; omega)]
        simp only [List.length_drop, hclen, hieq]
        simp
  | false =>
    have hpush : (ring_buffer_push rb b).1 =
        { buffer := rb.buffer.set rb.head b, head := (rb.head + 1) % rb.capacity,
          tail := rb.tail, capacity := rb.capacity,
          full := ((rb.head + 1) % rb.capacity == rb.tail) } := by
      simp only [ring_buffer_push, hfull, Bool.false_eq_true, if_false]
      cases hb : ((rb.head + 1) % rb.capacity == rb.tail) <;> simp [hb]
    have hcval : ring_buffer_get_count rb =
        if rb.head ≥ rb.tail then rb.head - rb.tail
        else rb.capacity + rb.head - rb.tail := by
      simp [ring_buffer_get_count, hfull]
    have hclt : ring_buffer_get_count rb < rb.capacity :=
      rb_count_lt_of_not_full rb ⟨hlen, hh, ht, hc, hft⟩ hfull
    have hm1 := mod_two_cases hc (show rb.head + 1 < 2 * rb.capacity by omega)
    have hcount' : ring_buffer_get_count
        { buffer := rb.buffer.set rb.head b, head := (rb.head + 1) % rb.capacity,
          tail := rb.tail, capacity := rb.capacity,
          full := ((rb.head + 1) % rb.capacity == rb.tail) } =
        ring_buffer_get_count rb + 1 := by
      cases hbeq : ((rb.head + 1) % rb.capacity == rb.tail) with
      | true =>
        have hbt : (rb.head + 1) % rb.capacity = rb.tail := by simpa using hbeq
        rw [rb_count_full _ rfl]
        show rb.capacity = ring_buffer_get_count rb + 1
        rw [hcval]
        rw [hm1] at hbt
        split at hbt <;> split <;> omega
      | false =>
        have hbt : ¬ (rb.head + 1) % rb.capacity = rb.tail := by simpa using hbeq
        rw [rb_count_mk_false]
        rw [hcval]
        rcases Nat.lt_or_ge (rb.head + 1) rb.capacity with hlt | hge
        · rw [if_pos hlt] at hm1
          rw [hm1] at hbt ⊢
          split <;> split <;> omega
        · rw [if_neg (by omega)] at hm1
          rw [hm1] at hbt ⊢
          split <;> split <;> omega
    rw [hpush, if_neg (by simp : ¬ (false : Bool) = true)]
    refine list_ext_getD _ _ ?_ ?_
    · rw [rb_contents_length, hcount']
      simp [rb_contents_length]
    · intro i hi
      have hic : i < ring_buffer_get_count rb + 1 := by
        rwa [rb_contents_length, hcount'] at hi
      have hLHS : (rb_contents
          { buffer := rb.buffer.set rb.head b, head := (rb.head + 1) % rb.capacity,
            tail := rb.tail, capacity := rb.capacity,
            full := ((rb.head + 1) % rb.capacity == rb.tail) }).getD i 0 =
          (rb.buffer.set rb.head b).getD ((rb.tail + i) % rb.capacity) 0 := by
        rw [rb_contents_getD _ i (by rw [hcount']; exact hic)]
      rw [hLHS]
      rcases Nat.lt_or_ge i (ring_buffer_get_count rb) with hilt | hige
      · have hne : rb.head ≠ (rb.tail + i) % rb.capacity := by
          have hm := mod_two_cases hc (show rb.tail + i < 2 * rb.capacity by omega)
          rw [hcval] at hilt
          split at hilt <;> split at hm <;> omega
        rw [rb_getD_set_ne _ _ _ _ hne]
        rw [rb_getD_append_left _ _ _ (by rw [rb_contents_length]; exact hilt)]
        rw [rb_contents_getD _ _ hilt]
      · have hieq : i = ring_buffer_get_count rb := by omega
        have hmod : (rb.tail + i) % rb.capacity = rb.head := by
          have hm := mod_two_cases hc (show rb.tail + i < 2 * rb.capacity by omega)
          rw [hcval] at hieq
          split at hieq <;> split at hm <;> omega
        rw [hmod, rb_getD_set_self _ _ _ (by omega)]
        rw [rb_getD_append_right _ _ _ (by rw [rb_contents_length]; omega)
          (by simp only [List.length_append, List.length_singleton, rb_contents_length]; omega)]
        simp [rb_contents_length, hieq]

/-- A `ring_buffer_pop` refines queue removal: it returns the oldest byte
(`none` when empty) and leaves the remaining contents. -/
theorem rb_pop_contents (rb : ring_buffer_t) (h : rb_valid rb) :
    (ring_buffer_pop rb).2 = (rb_contents rb).head? ∧
    rb_contents (ring_buffer_pop rb).1 = (rb_contents rb).drop 1 := by
  obtain ⟨hlen, hh, ht, hc, hft⟩ := h
  by_cases hemp : ring_buffer_is_empty rb = true
  · have hflags : rb.full = false ∧ rb.head = rb.tail := by
      simpa [ring_buffer_is_empty] using hemp
    have hcnt : ring_buffer_get_count rb = 0 := by
      simp [ring_buffer_get_count, hflags.1, hflags.2]
    have hcon : rb_contents rb = [] := by
      have h2 := rb_contents_length rb
      rw [hcnt] at h2
      exact List.length_eq_zero.mp h2
    simp [ring_buffer_pop, hemp, hcon]
  · have hne : rb.full = true ∨ rb.head ≠ rb.tail := by
      by_contra hcon
      push_neg at hcon
      exact hemp (by simp [ring_buffer_is_empty, hcon.1, hcon.2])
    have hcpos : 0 < ring_buffer_get_count rb := by
      rcases hne with h1 | h1
      · rw [rb_count_full _ h1]; omega
      · simp only [ring_buffer_get_count]
        split
        · omega
        · split <;> omega
    have hpop : ring_buffer_pop rb =
        ({ rb with tail := (rb.tail + 1) % rb.capacity, full := false },
         some (rb.buffer.getD rb.tail 0)) := by
      simp [ring_buffer_pop, hemp]
    have hm1 := mod_two_cases hc (show rb.tail + 1 < 2 * rb.capacity by omega)
    have hcnt' : ring_buffer_get_count
        { rb with tail := (rb.tail + 1) % rb.capacity, full := false } =
        ring_buffer_get_count rb - 1 := by
      rw [rb_count_mk_false]
      cases hfc : rb.full with
      | true =>
        have hht := hft hfc
        rw [rb_count_full _ hfc]
        rcases Nat.lt_or_ge (rb.tail + 1) rb.capacity with hlt | hge2
        · rw [if_pos hlt] at hm1
          rw [hm1]
          split <;> omega
        · rw [if_neg (by omega)] at hm1
          rw [hm1]
          split <;> omega
      | false =>
        have hcval : ring_buffer_get_count rb =
            if rb.head ≥ rb.tail then rb.head - rb.tail
            else rb.capacity + rb.head - rb.tail := by
          simp [ring_buffer_get_count, hfc]
        have hht : rb.head ≠ rb.tail := by
          rcases hne with h1 | h1
          · rw [hfc] at h1; exact absurd h1 (by simp)
          · exact h1
        rw [hcval]
        rcases Nat.lt_or_ge (rb.tail + 1) rb.capacity with hlt | hge2
        · rw [if_pos hlt] at hm1
          rw [hm1]
          split <;> split <;> omega
        · rw [if_neg (by omega)] at hm1
          rw [hm1]
          split <;> split <;> omega
    constructor
    · rw [hpop]
      have h0 : (rb_contents rb).head? = some ((rb_contents rb).getD 0 0) := by
        cases hcon : rb_contents rb with
        | nil =>
          exfalso
          have h2 := rb_contents_length rb
          rw [hcon] at h2
          simp at h2
          omega
        | cons x xs => simp [hcon]
      rw [h0, rb_contents_getD _ 0 hcpos]
      simp [Nat.mod_eq_of_lt ht]
    · rw [hpop]
      refine list_ext_getD _ _ ?_ ?_
      · rw [rb_contents_length, hcnt']
        simp [rb_contents_length]
      · intro i hi
        have hic : i < ring_buffer_get_count rb - 1 := by
          rwa [rb_contents_length, hcnt'] at hi
        rw [rb_contents_getD _ i (by rw [hcnt']; exact hic)]
        rw [rb_getD_drop _ _ _ (by rw [rb_contents_length]; omega)]
        rw [rb_contents_getD _ _ (by omega)]
        show rb.buffer.getD (((rb.tail + 1) % rb.capacity + i) % rb.capacity) 0 = _
        rw [Nat.mod_add_mod]
        have harg : rb.tail + 1 + i = rb.tail + (1 + i) := by omega
        rw [harg]

/-- Abstract overwrite-on-full queue step (the spec-level model that a full
push refines: drop the oldest element when at capacity, then append). -/
def overwrite_push (cap : Nat) (q : List Nat) (b : Nat) : List Nat :=
  (if q.length = cap then q.drop 1 else q) ++ [b]

theorem rb_push_list_contents (bs : List Nat) (rb : ring_buffer_t) (h : rb_valid rb) :
    rb_valid (ring_buffer_push_list rb bs) ∧
    (ring_buffer_push_list rb bs).capacity = rb.capacity ∧
    rb_contents (ring_buffer_push_list rb bs) =
      bs.foldl (overwrite_push rb.capacity) (rb_contents rb) := by
  induction bs generalizing rb with
  | nil => exact ⟨h, rfl, rfl⟩
  | cons b bs ih =>
    have hv' := rb_push_valid rb b h
    have hcap' : (ring_buffer_push rb b).1.capacity = rb.capacity := rfl
    obtain ⟨ih1, ih2, ih3⟩ := ih (ring_buffer_push rb b).1 hv'
    refine ⟨ih1, by rw [show ring_buffer_push_list rb (b :: bs) =
      ring_buffer_push_list (ring_buffer_push rb b).1 bs from rfl, ih2, hcap'], ?_⟩
    show rb_contents (ring_buffer_push_list (ring_buffer_push rb b).1 bs) = _
    rw [ih3, hcap']
    rw [List.foldl_cons]
    congr 1
    rw [rb_push_contents rb b h]
    unfold overwrite_push
    congr 1
    have hclen := rb_contents_length rb
    cases hfc : rb.full with
    | true =>
      rw [if_pos (rfl : (true : Bool) = true),
        if_pos (by rw [hclen, rb_count_full _ hfc])]
    | false =>
      rw [if_neg (by simp : ¬ (false : Bool) = true),
        if_neg (by rw [hclen]
                   exact Nat.ne_of_lt (rb_count_lt_of_not_full rb h hfc))]

theorem rb_drain_aux_eq (fuel : Nat) : ∀ rb : ring_buffer_t, rb_valid rb →
    ring_buffer_get_count rb ≤ fuel →
    ring_buffer_drain_aux fuel rb = rb_contents rb := by
  induction fuel with
  | zero =>
    intro rb _ hf
    have h2 : (rb_contents rb).length = 0 := by rw [rb_contents_length]; omega
    rw [ring_buffer_drain_aux]
    exact (List.length_eq_zero.mp h2).symm
  | succ n ih =>
    intro rb hv hf
    obtain ⟨hp2, hp1⟩ := rb_pop_contents rb hv
    rcases hpp : ring_buffer_pop rb with ⟨rb', ob⟩
    rw [hpp] at hp2 hp1
    rw [ring_buffer_drain_aux, hpp]
    cases ob with
    | none =>
      have hcon : rb_contents rb = [] := by
        cases hcon2 : rb_contents rb with
        | nil => rfl
        | cons x xs => rw [hcon2] at hp2; simp at hp2
      rw [hcon]
    | some b =>
      have hcon : rb_contents rb = b :: (rb_contents rb).drop 1 := by
        cases hcon2 : rb_contents rb with
        | nil => rw [hcon2] at hp2; simp at hp2
        | cons x xs =>
          rw [hcon2] at hp2
          simp at hp2
          simp [hp2]
      have hv' : rb_valid rb' := by
        have := rb_pop_valid rb hv
        rwa [hpp] at this
      have hcnt' : ring_buffer_get_count rb' ≤ n := by
        have h2 := rb_contents_length rb'
        rw [hp1] at h2
        have h3 := rb_contents_length rb
        simp at h2
        omega
      show b :: ring_buffer_drain_aux n rb' = rb_contents rb
      rw [ih rb' hv' hcnt', hp1]
      exact hcon.symm

theorem overwrite_fold_no_wrap (cap : Nat) (bs : List Nat) :
    ∀ q : List Nat, q.length + bs.length ≤ cap →
      bs.foldl (overwrite_push cap) q = q ++ bs := by
  induction bs with
  | nil => intro q _; simp
  | cons b bs ih =>
    intro q hq
    simp only [List.length_cons] at hq
    rw [List.foldl_cons]
    have h1 : overwrite_push cap q b = q ++ [b] := by
      unfold overwrite_push
      rw [if_neg (by omega)]
    rw [h1, ih (q ++ [b]) (by simp; omega)]
    simp

theorem overwrite_fold_drop_one (cap : Nat) (bs : List Nat) (hcap : 0 < cap)
    (hlen : bs.length = cap + 1) :
    bs.foldl (overwrite_push cap) [] = bs.drop 1 := by
  have hsplit : bs = bs.take cap ++ bs.drop cap := (List.take_append_drop cap bs).symm
  have htlen : (bs.take cap).length = cap := by rw [List.length_take]; omega
  obtain ⟨a, ha⟩ : ∃ a, bs.drop cap = [a] := by
    apply List.length_eq_one.mp
    rw [List.length_drop, hlen]
    omega
  conv_lhs => rw [hsplit]
  rw [List.foldl_append]
  rw [overwrite_fold_no_wrap cap (bs.take cap) [] (by simp [htlen])]
  rw [List.nil_append, ha]
  simp only [List.foldl_cons, List.foldl_nil]
  unfold overwrite_push
  rw [if_pos htlen]
  conv_rhs => rw [hsplit]
  rw [List.drop_append_of_le_length (by rw [htlen]; omega), ha]

/-! ## Claim C1 and C5 theorems -/

/-- C1: for every CircularByteBuffer of capacity N, `ring_buffer_push`
always succeeds (returns `true`); and pushing a sequence of N+1 bytes into
an initially empty buffer, then draining it by repeated `ring_buffer_pop`,
yields exactly the last N bytes pushed in push order — overwrite-on-full
discards only the oldest byte. -/
theorem C1_push_succeeds_and_drain_yields_last_N :
    (∀ (rb : ring_buffer_t) (b : Nat), (ring_buffer_push rb b).2 = true) ∧
    (∀ (N : Nat) (buf0 bs : List Nat) (rb0 : ring_buffer_t),
      0 < N → buf0.length = N → bs.length = N + 1 →
      ring_buffer_init buf0 N = some rb0 →
      ring_buffer_drain (ring_buffer_push_list rb0 bs) = bs.drop 1) := by
  constructor
  · intro rb b
    rfl
  · intro N buf0 bs rb0 hN hbuf hbs hinit
    have hrb0 : rb0 =
        { buffer := buf0, head := 0, tail := 0, capacity := N, full := false } := by
      rw [ring_buffer_init, if_neg (by omega)] at hinit
      exact (Option.some_inj.mp hinit).symm
    have hv0 : rb_valid rb0 := by
      rw [hrb0]
      exact ⟨hbuf, hN, hN, hN, fun h => by simp at h⟩
    have hcnt0 : ring_buffer_get_count rb0 = 0 := by
      rw [hrb0, rb_count_mk_false]
      simp
    have hc0 : rb_contents rb0 = [] := by
      have h2 := rb_contents_length rb0
      rw [hcnt0] at h2
      exact List.length_eq_zero.mp h2
    obtain ⟨hv1, hcap1, hcon1⟩ := rb_push_list_contents bs rb0 hv0
    have hcap0 : rb0.capacity = N := by rw [hrb0]
    have hdrain : ring_buffer_drain (ring_buffer_push_list rb0 bs) =
        rb_contents (ring_buffer_push_list rb0 bs) :=
      rb_drain_aux_eq _ _ hv1 (Nat.le_refl _)
    rw [hdrain, hcon1, hc0, hcap0]
    exact overwrite_fold_drop_one N bs hN hbs

/-- Witness for C1 at N = 2, pushed bytes [1, 2, 3]: draining yields [2, 3]. -/
theorem C1_witness :
    0 < 2 ∧ ([0, 0] : List Nat).length = 2 ∧ ([1, 2, 3] : List Nat).length = 2 + 1 ∧
    ring_buffer_drain (ring_buffer_push_list
      { buffer := [0, 0], head := 0, tail := 0, capacity := 2, full := false }
      [1, 2, 3]) = [2, 3] :=
  ⟨by decide, by decide, by decide,
    C1_push_succeeds_and_drain_yields_last_N.2 2 [0, 0] [1, 2, 3]
      { buffer := [0, 0], head := 0, tail := 0, capacity := 2, full := false }
      (by decide) (by decide) (by decide) rfl⟩

/-- A push or pop operation, for quantifying over operation sequences. -/
inductive rb_op where
  | push (b : Nat)
  | pop
deriving DecidableEq, Repr

/-- Applying a sequence of pushes and pops to a ring buffer. -/
def ring_buffer_apply_ops (rb : ring_buffer_t) (ops : List rb_op) : ring_buffer_t :=
  ops.foldl (fun r op =>
    match op with
    | .push b => (ring_buffer_push r b).1
    | .pop => (ring_buffer_pop r).1) rb

theorem rb_apply_ops_valid (ops : List rb_op) (rb : ring_buffer_t) (h : rb_valid rb) :
    rb_valid (ring_buffer_apply_ops rb ops) := by
  induction ops generalizing rb with
  | nil => exact h
  | cons op ops ih =>
    cases op with
    | push b => exact ih _ (rb_push_valid rb b h)
    | pop => exact ih _ (rb_pop_valid rb h)

theorem rb_pop_capacity (rb : ring_buffer_t) :
    (ring_buffer_pop rb).1.capacity = rb.capacity := by
  unfold ring_buffer_pop
  split <;> rfl

theorem rb_apply_ops_capacity (ops : List rb_op) (rb : ring_buffer_t) :
    (ring_buffer_apply_ops rb ops).capacity = rb.capacity := by
  induction ops generalizing rb with
  | nil => rfl
  | cons op ops ih =>
    cases op with
    | push b => exact ih _
    | pop =>
      show (ring_buffer_apply_ops (ring_buffer_pop rb).1 ops).capacity = _
      rw [ih _, rb_pop_capacity]

/-- The C count formula agrees with mathematical `(head - tail) mod capacity`
over the integers (or `capacity` when full). -/
theorem rb_count_int_formula (rb : ring_buffer_t) (h : rb_valid rb) :
    (ring_buffer_get_count rb : Int) =
      if rb.full then (rb.capacity : Int)
      else ((rb.head : Int) - (rb.tail : Int)) % (rb.capacity : Int) := by
  obtain ⟨hlen, hh, ht, hc, hft⟩ := h
  cases hfc : rb.full with
  | true =>
    rw [rb_count_full _ hfc, if_pos rfl]
  | false =>
    rw [if_neg (by simp)]
    have hcval : ring_buffer_get_count rb =
        if rb.head ≥ rb.tail then rb.head - rb.tail
        else rb.capacity + rb.head - rb.tail := by
      simp [ring_buffer_get_count, hfc]
    rcases Nat.lt_or_ge rb.head rb.tail with hlt | hge
    · rw [hcval, if_neg (by omega)]
      have hstep : ((rb.head : Int) - rb.tail) % rb.capacity =
          ((rb.head : Int) - rb.tail + rb.capacity) % rb.capacity := by simp
      rw [hstep, Int.emod_eq_of_lt (by omega) (by omega)]
      omega
    · rw [hcval, if_pos hge]
      rw [Int.emod_eq_of_lt (by omega) (by omega)]
      omega

/-- C5: on every sequence of pushes and pops applied to an initialized
CircularByteBuffer of capacity N, `ring_buffer_get_count` never exceeds N,
and equals N when the `full` flag is set and `(head - tail) mod N`
(mathematical integer mod) otherwise. -/
theorem C5_count_invariant (N : Nat) (buf0 : List Nat) (ops : List rb_op)
    (rb0 : ring_buffer_t) (hN : 0 < N) (hbuf : buf0.length = N)
    (hinit : ring_buffer_init buf0 N = some rb0) :
    ring_buffer_get_count (ring_buffer_apply_ops rb0 ops) ≤ N ∧
    (ring_buffer_get_count (ring_buffer_apply_ops rb0 ops) : Int) =
      (if (ring_buffer_apply_ops rb0 ops).full then (N : Int)
       else (((ring_buffer_apply_ops rb0 ops).head : Int) -
         ((ring_buffer_apply_ops rb0 ops).tail : Int)) % (N : Int)) := by
  have hrb0 : rb0 =
      { buffer := buf0, head := 0, tail := 0, capacity := N, full := false } := by
    rw [ring_buffer_init, if_neg (by omega)] at hinit
    exact (Option.some_inj.mp hinit).symm
  have hv0 : rb_valid rb0 := by
    rw [hrb0]
    exact ⟨hbuf, hN, hN, hN, fun h => by simp at h⟩
  have hv := rb_apply_ops_valid ops rb0 hv0
  have hcap : (ring_buffer_apply_ops rb0 ops).capacity = N := by
    rw [rb_apply_ops_capacity, hrb0]
  constructor
  · have h1 := rb_count_le _ hv
    rwa [hcap] at h1
  · have h1 := rb_count_int_formula _ hv
    rwa [hcap] at h1

/-- Witness for C5 at N = 2, ops push 5, push 6, push 7, pop. -/
theorem C5_witness :
    0 < 2 ∧ ([0, 0] : List Nat).length = 2 ∧
    (ring_buffer_get_count (ring_buffer_apply_ops
      { buffer := [0, 0], head := 0, tail := 0, capacity := 2, full := false }
      [rb_op.push 5, rb_op.push 6, rb_op.push 7, rb_op.pop]) ≤ 2 ∧
    (ring_buffer_get_count (ring_buffer_apply_ops
      { buffer := [0, 0], head := 0, tail := 0, capacity := 2, full := false }
      [rb_op.push 5, rb_op.push 6, rb_op.push 7, rb_op.pop]) : Int) =
      (if (ring_buffer_apply_ops
        { buffer := [0, 0], head := 0, tail := 0, capacity := 2, full := false }
        [rb_op.push 5, rb_op.push 6, rb_op.push 7, rb_op.pop]).full then (2 : Int)
       else (((ring_buffer_apply_ops
        { buffer := [0, 0], head := 0, tail := 0, capacity := 2, full := false }
        [rb_op.push 5, rb_op.push 6, rb_op.push 7, rb_op.pop]).head : Int) -
         ((ring_buffer_apply_ops
        { buffer := [0, 0], head := 0, tail := 0, capacity := 2, full := false }
        [rb_op.push 5, rb_op.push 6, rb_op.push 7, rb_op.pop]).tail : Int)) % (2 : Int))) :=
  ⟨by decide, by decide,
    C5_count_invariant 2 [0, 0] [rb_op.push 5, rb_op.push 6, rb_op.push 7, rb_op.pop]
      { buffer := [0, 0], head := 0, tail := 0, capacity := 2, full := false }
      (by decide) (by decide) rfl⟩

/-! ## UART driver TX path (`uart_driver.c`) -/

/-- Model of `UART_DRIVER_MAX_TX_BUFFER` (uart_driver.h:32). -/
abbrev UART_DRIVER_MAX_TX_BUFFER : Nat := 256

/-- Model of `UART_DRIVER_MAX_RX_BUFFER` (uart_driver.h:26). -/
abbrev UART_DRIVER_MAX_RX_BUFFER : Nat := 256

/-- TX-side state of `uart_driver_t` plus the trace of bytes handed to
`HAL_UART_Transmit_IT` (each such byte is transmitted on the wire and
triggers one TX-complete interrupt). -/
structure uart_tx_state where
  ring_buffer_tx : ring_buffer_t
  tx_busy : Bool
  transmitted : List Nat
deriving DecidableEq, Repr

/-- Model of `uart_driver_send` (uart_driver.c:74-94): rejects empty input with 0,
pushes every byte into the TX ring (overwrite-on-full), then if not busy
pops the first byte and starts transmission; returns the input length. -/
def uart_driver_send (s : uart_tx_state) (data : List Nat) : uart_tx_state × Nat :=
  if data.length = 0 then (s, 0)
  else
    let s1 : uart_tx_state :=
      { s with ring_buffer_tx := ring_buffer_push_list s.ring_buffer_tx data }
    if s1.tx_busy then (s1, data.length)
    else
      match ring_buffer_pop s1.ring_buffer_tx with
      | (rb', some first) =>
        ({ ring_buffer_tx := rb', tx_busy := true,
           transmitted := s1.transmitted ++ [first] }, data.length)
      | (rb', none) => ({ s1 with ring_buffer_tx := rb' }, 0)

/-- Model of `uart_driver_tx_it_callback` (uart_driver.c:49-61): on TX-complete,
pop and transmit the next byte, or clear `tx_busy` when the ring is empty. -/
def uart_driver_tx_it_callback (s : uart_tx_state) : uart_tx_state :=
  match ring_buffer_pop s.ring_buffer_tx with
  | (rb', some next) =>
    { ring_buffer_tx := rb', tx_busy := s.tx_busy,
      transmitted := s.transmitted ++ [next] }
  | (rb', none) => { s with ring_buffer_tx := rb', tx_busy := false }

/-- Iterating `n` successive TX-complete notifications. -/
def uart_driver_tx_drive : Nat → uart_tx_state → uart_tx_state
  | 0, s => s
  | n + 1, s => uart_driver_tx_drive n (uart_driver_tx_it_callback s)

/-- Driving a busy transport whose TX ring holds `cs` for `cs.length + 1`
notifications transmits exactly `cs` and then clears `tx_busy`. -/
theorem tx_drive_transmits_contents (cs : List Nat) : ∀ s : uart_tx_state,
    rb_valid s.ring_buffer_tx → rb_contents s.ring_buffer_tx = cs →
    s.tx_busy = true →
    (uart_driver_tx_drive (cs.length + 1) s).transmitted = s.transmitted ++ cs ∧
    (uart_driver_tx_drive (cs.length + 1) s).tx_busy = false := by
  induction cs with
  | nil =>
    intro s hv hcon hb
    obtain ⟨hp2, hp1⟩ := rb_pop_contents s.ring_buffer_tx hv
    rcases hpp : ring_buffer_pop s.ring_buffer_tx with ⟨rb', ob⟩
    rw [hpp] at hp2 hp1
    cases ob with
    | none =>
      simp [uart_driver_tx_drive, uart_driver_tx_it_callback, hpp]
    | some b =>
      rw [hcon] at hp2
      simp at hp2
  | cons c cs ih =>
    intro s hv hcon hb
    obtain ⟨hp2, hp1⟩ := rb_pop_contents s.ring_buffer_tx hv
    rcases hpp : ring_buffer_pop s.ring_buffer_tx with ⟨rb', ob⟩
    rw [hpp] at hp2 hp1
    cases ob with
    | none =>
      rw [hcon] at hp2
      simp at hp2
    | some b =>
      have hbc : b = c := by
        rw [hcon] at hp2
        simpa using hp2
      have hv' : rb_valid rb' := by
        have h2 := rb_pop_valid _ hv
        rwa [hpp] at h2
      have hcon' : rb_contents rb' = cs := by
        rw [hp1, hcon]
        rfl
      have hstep : uart_driver_tx_drive ((c :: cs).length + 1) s =
          uart_driver_tx_drive (cs.length + 1) (uart_driver_tx_it_callback s) := rfl
      have hcb : uart_driver_tx_it_callback s =
          { ring_buffer_tx := rb', tx_busy := s.tx_busy,
            transmitted := s.transmitted ++ [b] } := by
        simp [uart_driver_tx_it_callback, hpp]
      rw [hstep, hcb]
      obtain ⟨t1, t2⟩ := ih
        { ring_buffer_tx := rb', tx_busy := s.tx_busy,
          transmitted := s.transmitted ++ [b] } hv' hcon' hb
      refine ⟨?_, t2⟩
      rw [t1, hbc]
      simp

/-- Idle transport from `uart_driver_init` (uart_driver.c:181-194): empty
256-byte TX ring, `tx_busy = false`, nothing transmitted yet. -/
def uart_driver_idle_tx : uart_tx_state :=
  { ring_buffer_tx :=
      { buffer := List.replicate UART_DRIVER_MAX_TX_BUFFER 0, head := 0, tail := 0,
        capacity := UART_DRIVER_MAX_TX_BUFFER, full := false },
    tx_busy := false, transmitted := [] }

/-- C2 (amended): `uart_driver_send` of L bytes, L ≤ the TX ring capacity,
on an idle transport (`tx_busy` false, TX ring empty, nothing transmitted)
returns L, and after L successive TX-complete notifications exactly the L
sent bytes have been transmitted, in order, and `tx_busy` is false. -/
theorem C2_send_idle_transmits_exactly_L (data : List Nat) (s : uart_tx_state)
    (hv : rb_valid s.ring_buffer_tx)
    (hcap : data.length ≤ s.ring_buffer_tx.capacity)
    (hempty : rb_contents s.ring_buffer_tx = [])
    (hidle : s.tx_busy = false) (htr : s.transmitted = []) :
    (uart_driver_send s data).2 = data.length ∧
    (uart_driver_tx_drive data.length (uart_driver_send s data).1).transmitted = data ∧
    (uart_driver_tx_drive data.length (uart_driver_send s data).1).tx_busy = false := by
  cases hd : data with
  | nil =>
    have hsend : uart_driver_send s [] = (s, 0) := by
      simp [uart_driver_send]
    rw [hsend]
    simp [uart_driver_tx_drive, htr, hidle]
  | cons d ds =>
    rw [← hd]
    have hlen0 : ¬ data.length = 0 := by rw [hd]; simp
    obtain ⟨hv1, hcap1, hcon1⟩ := rb_push_list_contents data s.ring_buffer_tx hv
    have hcon1' : rb_contents (ring_buffer_push_list s.ring_buffer_tx data) = data := by
      rw [hcon1, hempty]
      exact overwrite_fold_no_wrap s.ring_buffer_tx.capacity data []
        (by simpa using hcap)
    obtain ⟨hp2, hp1⟩ := rb_pop_contents (ring_buffer_push_list s.ring_buffer_tx data) hv1
    rcases hpp : ring_buffer_pop (ring_buffer_push_list s.ring_buffer_tx data) with ⟨rb', ob⟩
    rw [hpp] at hp2 hp1
    cases ob with
    | none =>
      rw [hcon1', hd] at hp2
      simp at hp2
    | some b =>
      have hbd : b = d := by
        rw [hcon1', hd] at hp2
        simpa using hp2
      have hv' : rb_valid rb' := by
        have h2 := rb_pop_valid _ hv1
        rwa [hpp] at h2
      have hcon' : rb_contents rb' = ds := by
        rw [hp1, hcon1', hd]
        rfl
      have hsend : uart_driver_send s data =
          ({ ring_buffer_tx := rb', tx_busy := true,
             transmitted := s.transmitted ++ [b] }, data.length) := by
        unfold uart_driver_send
        rw [if_neg hlen0]
        rw [if_neg (by simpa using hidle)]
        rw [hpp]
      rw [hsend]
      refine ⟨rfl, ?_, ?_⟩
      · have hdl : data.length = ds.length + 1 := by rw [hd]; rfl
        rw [hdl]
        obtain ⟨t1, t2⟩ := tx_drive_transmits_contents ds
          { ring_buffer_tx := rb', tx_busy := true,
            transmitted := s.transmitted ++ [b] } hv' hcon' rfl
        rw [t1, htr, hbd, hd]
        simp
      · have hdl : data.length = ds.length + 1 := by rw [hd]; rfl
        rw [hdl]
        exact (tx_drive_transmits_contents ds
          { ring_buffer_tx := rb', tx_busy := true,
            transmitted := s.transmitted ++ [b] } hv' hcon' rfl).2

/-- Witness for C2 (amended) at data = [1, 2, 3] on the idle driver state. -/
theorem C2_witness :
    rb_valid uart_driver_idle_tx.ring_buffer_tx ∧
    ([1, 2, 3] : List Nat).length ≤ uart_driver_idle_tx.ring_buffer_tx.capacity ∧
    rb_contents uart_driver_idle_tx.ring_buffer_tx = [] ∧
    uart_driver_idle_tx.tx_busy = false ∧
    uart_driver_idle_tx.transmitted = [] ∧
    (uart_driver_send uart_driver_idle_tx [1, 2, 3]).2 = 3 ∧
    (uart_driver_tx_drive 3 (uart_driver_send uart_driver_idle_tx [1, 2, 3]).1).transmitted
      = [1, 2, 3] ∧
    (uart_driver_tx_drive 3 (uart_driver_send uart_driver_idle_tx [1, 2, 3]).1).tx_busy
      = false := by
  have h := C2_send_idle_transmits_exactly_L [1, 2, 3] uart_driver_idle_tx
    (by decide) (by decide) (by decide) (by decide) (by decide)
  exact ⟨by decide, by decide, by decide, by decide, by decide, h.1, h.2.1, h.2.2⟩

/-- Sending capacity+1 bytes into an idle transport: the returned count is
still the input length, but the first queued byte is overwritten, so the
notifications transmit only `bs.drop 1` before `tx_busy` clears. -/
theorem send_overflow_transmits_drop (bs : List Nat) (s : uart_tx_state)
    (hv : rb_valid s.ring_buffer_tx)
    (hlen : bs.length = s.ring_buffer_tx.capacity + 1)
    (hempty : rb_contents s.ring_buffer_tx = [])
    (hidle : s.tx_busy = false) (htr : s.transmitted = []) :
    (uart_driver_send s bs).2 = bs.length ∧
    (uart_driver_tx_drive s.ring_buffer_tx.capacity
      (uart_driver_send s bs).1).transmitted = bs.drop 1 ∧
    (uart_driver_tx_drive s.ring_buffer_tx.capacity
      (uart_driver_send s bs).1).tx_busy = false := by
  have hcpos : 0 < s.ring_buffer_tx.capacity := hv.2.2.2.1
  have hlen0 : ¬ bs.length = 0 := by omega
  obtain ⟨hv1, hcap1, hcon1⟩ := rb_push_list_contents bs s.ring_buffer_tx hv
  have hcon1' : rb_contents (ring_buffer_push_list s.ring_buffer_tx bs) = bs.drop 1 := by
    rw [hcon1, hempty]
    exact overwrite_fold_drop_one s.ring_buffer_tx.capacity bs hcpos hlen
  have hd1len : (bs.drop 1).length = s.ring_buffer_tx.capacity := by
    rw [List.length_drop]
    omega
  obtain ⟨d, ds, hds⟩ : ∃ d ds, bs.drop 1 = d :: ds := by
    cases hcase : bs.drop 1 with
    | nil => rw [hcase] at hd1len; simp at hd1len; omega
    | cons x xs => exact ⟨x, xs, rfl⟩
  obtain ⟨hp2, hp1⟩ := rb_pop_contents (ring_buffer_push_list s.ring_buffer_tx bs) hv1
  rcases hpp : ring_buffer_pop (ring_buffer_push_list s.ring_buffer_tx bs) with ⟨rb', ob⟩
  rw [hpp] at hp2 hp1
  cases ob with
  | none =>
    rw [hcon1', hds] at hp2
    simp at hp2
  | some b =>
    have hbd : b = d := by
      rw [hcon1', hds] at hp2
      simpa using hp2
    have hv' : rb_valid rb' := by
      have h2 := rb_pop_valid _ hv1
      rwa [hpp] at h2
    have hcon' : rb_contents rb' = ds := by
      rw [hp1, hcon1', hds]
      rfl
    have hsend : uart_driver_send s bs =
        ({ ring_buffer_tx := rb', tx_busy := true,
           transmitted := s.transmitted ++ [b] }, bs.length) := by
      unfold uart_driver_send
      rw [if_neg hlen0]
      rw [if_neg (by simpa using hidle)]
      rw [hpp]
    rw [hsend]
    have hdl : s.ring_buffer_tx.capacity = ds.length + 1 := by
      have : (bs.drop 1).length = ds.length + 1 := by rw [hds]; rfl
      omega
    obtain ⟨t1, t2⟩ := tx_drive_transmits_contents ds
      { ring_buffer_tx := rb', tx_busy := true,
        transmitted := s.transmitted ++ [b] } hv' hcon' rfl
    refine ⟨rfl, ?_, ?_⟩
    · rw [hdl, t1, htr, hbd, hds]
      simp
    · rw [hdl]
      exact t2

/-- C2 counterexample: sending 257 bytes (one more than the TX ring
capacity 256) into the idle transport returns 257, but by the time
`tx_busy` has been cleared by the successive TX-complete notifications only
256 bytes were ever transmitted — the oldest queued byte was overwritten —
so "exactly L bytes are transmitted" fails at L = 257. -/
theorem C2_counterexample :
    (uart_driver_send uart_driver_idle_tx (List.replicate 257 7)).2 = 257 ∧
    (uart_driver_tx_drive 256
      (uart_driver_send uart_driver_idle_tx (List.replicate 257 7)).1).tx_busy = false ∧
    (uart_driver_tx_drive 256
      (uart_driver_send uart_driver_idle_tx (List.replicate 257 7)).1).transmitted.length
      = 256 ∧
    ¬ (uart_driver_tx_drive 256
      (uart_driver_send uart_driver_idle_tx (List.replicate 257 7)).1).transmitted
      = List.replicate 257 7 := by
  have hcap256 : uart_driver_idle_tx.ring_buffer_tx.capacity = 256 := rfl
  obtain ⟨h1, h2, h3⟩ := send_overflow_transmits_drop (List.replicate 257 7)
    uart_driver_idle_tx (by decide) (by rw [hcap256]; simp) (by decide) rfl rfl
  rw [hcap256] at h2 h3
  refine ⟨by simpa using h1, h3, ?_, ?_⟩
  · rw [h2]
    simp
  · rw [h2]
    intro heq
    have hlen := congrArg List.length heq
    simp at hlen

/-! ## UART reconfigure (`uart_driver.c:148-169`, mirrored by
`uart_shell_reconfigure`, uart_shell.c:131-152) -/

/-- Observable hardware-channel configuration: `baudRate` mirrors
`huart->Init.BaudRate`, `initialized` the DeInit/Init state, `rxArmed`
whether an interrupt-driven receive is armed. -/
structure huart_state where
  baudRate : Nat
  initialized : Bool
  rxArmed : Bool
deriving DecidableEq, Repr

/-- Model of `uart_driver_reconfigure` (uart_driver.c:148-169).  The HAL outcomes
are oracle inputs: `deinit_ok` is the result of `HAL_UART_DeInit` and
`init_ok` of `HAL_UART_Init`; a `none` handle models a null
driver/`huart` pointer. -/
def uart_driver_reconfigure (deinit_ok init_ok : Bool) (huart : Option huart_state)
    (baud_rate : Nat) : Option huart_state × Bool :=
  match huart with
  | none => (none, false)
  | some h =>
    if baud_rate = 0 then (some h, false)
    else
      -- HAL_UART_AbortTransmit / HAL_UART_AbortReceive
      let h1 : huart_state := { h with rxArmed := false }
      if deinit_ok = false then (some h1, false)
      else
        let h2 : huart_state := { h1 with initialized := false }
        let h3 : huart_state := { h2 with baudRate := baud_rate }
        if init_ok = false then (some h3, false)
        else
          let h4 : huart_state := { h3 with initialized := true }
          (some { h4 with rxArmed := true }, true)

/-- C7 counterexample: with a last-good configuration at 115200 baud, a
reconfigure to 9600 whose `HAL_UART_Init` step fails returns false, yet the
stored baud rate has already been changed to 9600 and the channel is left
deinitialized with reception un-armed — not the last-good configuration. -/
theorem C7_counterexample :
    (uart_driver_reconfigure true false
      (some { baudRate := 115200, initialized := true, rxArmed := true }) 9600).2
      = false ∧
    (uart_driver_reconfigure true false
      (some { baudRate := 115200, initialized := true, rxArmed := true }) 9600).1
      = some { baudRate := 9600, initialized := false, rxArmed := false } ∧
    ¬ (uart_driver_reconfigure true false
      (some { baudRate := 115200, initialized := true, rxArmed := true }) 9600).1
      = some { baudRate := 115200, initialized := true, rxArmed := true } := by
  refine ⟨rfl, rfl, by decide⟩

/-- C7 (amended): when `uart_driver_reconfigure` fails because the handle
is null or the requested rate is zero the state is untouched; when the
deinitialization step fails the stored baud rate is still the last-good one
(but in-flight transfers have been aborted); when the re-initialization
step fails the transport does NOT keep its last-good configuration — the
stored baud rate has already been set to the requested rate and the channel
is left deinitialized, reception un-armed. -/
theorem C7_reconfigure_failure_states (deinit_ok init_ok : Bool)
    (h : huart_state) (b : Nat) :
    uart_driver_reconfigure deinit_ok init_ok none b = (none, false) ∧
    uart_driver_reconfigure deinit_ok init_ok (some h) 0 = (some h, false) ∧
    uart_driver_reconfigure false init_ok (some h) (b + 1) =
      (some { h with rxArmed := false }, false) ∧
    uart_driver_reconfigure true false (some h) (b + 1) =
      (some { baudRate := b + 1, initialized := false, rxArmed := false }, false) := by
  refine ⟨rfl, by simp [uart_driver_reconfigure], ?_, ?_⟩
  · simp [uart_driver_reconfigure]
  · simp [uart_driver_reconfigure]

/-! ## UART driver RX packet assembly (`uart_driver_poll`,
uart_driver.c:105-136) -/

/-- One iteration of the `uart_driver_poll` drain loop
(uart_driver.c:116-135) on the (packet accumulator, delivered packets)
state: append the byte when there is room (else reset and drop it), then
deliver the packet to the RX callback when it is longer than 2 bytes and
ends in CR LF. -/
def uart_driver_poll_step (acc : List Nat × List (List Nat)) (byte : Nat) :
    List Nat × List (List Nat) :=
  let (packet, delivered) := acc
  if packet.length < UART_DRIVER_MAX_RX_BUFFER then
    let packet1 := packet ++ [byte]
    if packet1.length > 2 ∧ packet1.getD (packet1.length - 2) 0 = 13 ∧
        packet1.getD (packet1.length - 1) 0 = 10 then
      ([], delivered ++ [packet1])
    else (packet1, delivered)
  else ([], delivered)

/-- The `uart_driver_poll` drain loop over the bytes popped from the RX
ring in one call, starting from accumulator `packet`; returns the final
accumulator and the packets handed to the RX callback, in order. -/
def uart_driver_poll_bytes (packet : List Nat) (bytes : List Nat) :
    List Nat × List (List Nat) :=
  bytes.foldl uart_driver_poll_step (packet, [])

theorem poll_fold_preserves (bytes : List Nat) :
    ∀ acc : List Nat × List (List Nat),
      (∀ p ∈ acc.2, 3 ≤ p.length ∧ p.getD (p.length - 2) 0 = 13 ∧
        p.getD (p.length - 1) 0 = 10) →
      ∀ p ∈ (bytes.foldl uart_driver_poll_step acc).2,
        3 ≤ p.length ∧ p.getD (p.length - 2) 0 = 13 ∧ p.getD (p.length - 1) 0 = 10 := by
  induction bytes with
  | nil => intro acc hacc; exact hacc
  | cons b bs ih =>
    intro acc hacc
    show ∀ p ∈ (bs.foldl uart_driver_poll_step (uart_driver_poll_step acc b)).2, _
    apply ih
    rcases acc with ⟨packet, delivered⟩
    unfold uart_driver_poll_step
    dsimp only
    split
    · split
      · next hcond =>
        intro p hp
        rcases List.mem_append.mp hp with h1 | h1
        · exact hacc p h1
        · have hpv : p = packet ++ [b] := by simpa using h1
          subst hpv
          exact ⟨by omega, hcond.2.1, hcond.2.2⟩
      · intro p hp
        exact hacc p hp
    · intro p hp
      exact hacc p hp

/-- C10: every packet handed to the RX callback by the `uart_driver_poll`
drain loop has length at least 3 and its last two bytes are CR (13) LF
(10); and a bare two-byte CR LF at the start of a packet is not delivered —
it stays accumulated in the packet buffer. -/
theorem C10_poll_delivers_only_crlf_packets :
    (∀ (packet0 bytes p : List Nat),
      p ∈ (uart_driver_poll_bytes packet0 bytes).2 →
      3 ≤ p.length ∧ p.getD (p.length - 2) 0 = 13 ∧ p.getD (p.length - 1) 0 = 10) ∧
    uart_driver_poll_bytes [] [13, 10] = ([13, 10], []) := by
  constructor
  · intro packet0 bytes p hp
    exact poll_fold_preserves bytes (packet0, []) (by intro q hq; simp at hq) p hp
  · rfl

/-- Witness for C10 on the packet [97, 13, 10] ("a\r\n"). -/
theorem C10_witness :
    [97, 13, 10] ∈ (uart_driver_poll_bytes [] [97, 13, 10]).2 ∧
    3 ≤ ([97, 13, 10] : List Nat).length ∧
    ([97, 13, 10] : List Nat).getD (([97, 13, 10] : List Nat).length - 2) 0 = 13 ∧
    ([97, 13, 10] : List Nat).getD (([97, 13, 10] : List Nat).length - 1) 0 = 10 :=
  ⟨by decide,
    C10_poll_delivers_only_crlf_packets.1 [] [97, 13, 10] [97, 13, 10] (by decide)⟩

/-! ## Null-pointer defensiveness (`uart_driver.c`), claim C8

C pointers become `Option`; the explicit `== NULL` guards in the source
map to `none` tests, and a dereference of a null pointer (a path with no
guard) is modelled as `Except.error ()`. -/

/-- Full `uart_driver_t` state (uart_driver.h:50-59) with its nullable
`huart` handle, for the operations whose null checks inspect it. -/
structure uart_driver_state where
  huart : Option huart_state
  ring_buffer_rx : ring_buffer_t
  ring_buffer_tx : ring_buffer_t
  rx_byte : Nat
  tx_busy : Bool
deriving DecidableEq, Repr

/-- Model of `uart_driver_send` with nullable pointers (uart_driver.c:74-94): the
code checks only `data == NULL || length == 0` (returning 0) and then
dereferences `uart_driver` without a null check. -/
def uart_driver_send_checked (drv : Option uart_tx_state)
    (data : Option (List Nat)) : Except Unit (Option uart_tx_state × Nat) :=
  if data = none ∨ (data.getD []).length = 0 then .ok (drv, 0)
  else
    match drv with
    | none => .error ()
    | some s =>
      let r := uart_driver_send s (data.getD [])
      .ok (some r.1, r.2)

/-- Model of `uart_driver_poll` with a nullable driver (uart_driver.c:105-136): the
loop pops `uart_driver->ring_buffer_rx` with no null check on
`uart_driver`; the drained bytes feed the packet assembler. -/
def uart_driver_poll_checked (drv : Option ring_buffer_t) (packet : List Nat) :
    Except Unit (List Nat × List (List Nat)) :=
  match drv with
  | none => .error ()
  | some rb => .ok (uart_driver_poll_bytes packet (ring_buffer_drain rb))

/-- Model of `uart_driver_rx_it_callback` (uart_driver.c:31-38): returns early on a
null driver or null `huart`, else pushes `rx_byte` into the RX ring and
re-arms reception. -/
def uart_driver_rx_it_callback_checked (drv : Option uart_driver_state) :
    Except Unit (Option uart_driver_state) :=
  match drv with
  | none => .ok none
  | some d =>
    match d.huart with
    | none => .ok (some d)
    | some _ =>
      .ok (some { d with ring_buffer_rx := (ring_buffer_push d.ring_buffer_rx d.rx_byte).1 })

/-- Model of `uart_driver_tx_it_callback` (uart_driver.c:49-61) with nullable
pointers: returns early on a null driver or null `huart`. -/
def uart_driver_tx_it_callback_checked (drv : Option uart_driver_state) :
    Except Unit (Option uart_driver_state) :=
  match drv with
  | none => .ok none
  | some d =>
    match d.huart with
    | none => .ok (some d)
    | some _ =>
      match ring_buffer_pop d.ring_buffer_tx with
      | (rb', some _) => .ok (some { d with ring_buffer_tx := rb' })
      | (rb', none) => .ok (some { d with ring_buffer_tx := rb', tx_busy := false })

/-- Model of `uart_driver_init` (uart_driver.c:181-194): returns early when `huart`
or the callback is null, but dereferences `uart_driver` itself without a
check. -/
def uart_driver_init_checked (drv : Option uart_driver_state)
    (huart : Option huart_state) (rx_callback_present : Bool) :
    Except Unit (Option uart_driver_state) :=
  if huart = none ∨ rx_callback_present = false then .ok drv
  else
    match drv with
    | none => .error ()
    | some d =>
      let rx0 : ring_buffer_t :=
        { buffer := List.replicate UART_DRIVER_MAX_RX_BUFFER 0, head := 0,
          tail := 0, capacity := UART_DRIVER_MAX_RX_BUFFER, full := false }
      let tx0 : ring_buffer_t :=
        { buffer := List.replicate UART_DRIVER_MAX_TX_BUFFER 0, head := 0,
          tail := 0, capacity := UART_DRIVER_MAX_TX_BUFFER, full := false }
      .ok (some { d with huart := huart, tx_busy := false,
                         ring_buffer_rx := rx0, ring_buffer_tx := tx0 })

/-- C8 counterexample: `uart_driver_send` with a null transport pointer and
a nonempty buffer dereferences the null pointer (the fatal path) instead of
degrading to a no-op — the driver checks `data`, not `uart_driver`. -/
theorem C8_counterexample :
    uart_driver_send_checked none (some [65]) = .error () := rfl

/-- C8 (amended): null or zero-length DATA inputs degrade to zero-result
no-ops before any dereference, the two interrupt callbacks and reconfigure
are defensive against a null driver/handle, and init is defensive against a
null handle or callback; but `uart_driver_send`, `uart_driver_poll` and
`uart_driver_init` dereference the transport pointer itself without a null
check, so a null transport is a fatal dereference there, not a no-op. -/
theorem C8_null_handling :
    (∀ drv : Option uart_tx_state, uart_driver_send_checked drv none = .ok (drv, 0)) ∧
    (∀ drv : Option uart_tx_state, uart_driver_send_checked drv (some []) = .ok (drv, 0)) ∧
    (∀ (b : Nat) (bs : List Nat),
      uart_driver_send_checked none (some (b :: bs)) = .error ()) ∧
    (∀ packet : List Nat, uart_driver_poll_checked none packet = .error ()) ∧
    uart_driver_rx_it_callback_checked none = .ok none ∧
    (∀ (rbx rbtx : ring_buffer_t) (byte : Nat) (busy : Bool),
      uart_driver_rx_it_callback_checked
        (some { huart := none, ring_buffer_rx := rbx, ring_buffer_tx := rbtx,
                rx_byte := byte, tx_busy := busy }) =
        .ok (some { huart := none, ring_buffer_rx := rbx, ring_buffer_tx := rbtx,
                    rx_byte := byte, tx_busy := busy })) ∧
    uart_driver_tx_it_callback_checked none = .ok none ∧
    (∀ (rbx rbtx : ring_buffer_t) (byte : Nat) (busy : Bool),
      uart_driver_tx_it_callback_checked
        (some { huart := none, ring_buffer_rx := rbx, ring_buffer_tx := rbtx,
                rx_byte := byte, tx_busy := busy }) =
        .ok (some { huart := none, ring_buffer_rx := rbx, ring_buffer_tx := rbtx,
                    rx_byte := byte, tx_busy := busy })) ∧
    (∀ (dok iok : Bool) (b : Nat),
      uart_driver_reconfigure dok iok none b = (none, false)) ∧
    (∀ (drv : Option uart_driver_state) (cb : Bool),
      uart_driver_init_checked drv none cb = .ok drv) ∧
    (∀ (drv : Option uart_driver_state) (h : huart_state),
      uart_driver_init_checked drv (some h) false = .ok drv) ∧
    (∀ h : huart_state, uart_driver_init_checked none (some h) true = .error ()) := by
  refine ⟨fun drv => rfl, fun drv => rfl, ?_, fun packet => rfl, rfl, fun rbx rbtx byte busy => rfl,
    rfl, fun rbx rbtx byte busy => rfl, fun dok iok b => rfl, ?_, ?_, fun h => ?_⟩
  · intro b bs
    simp [uart_driver_send_checked]
  · intro drv cb
    simp [uart_driver_init_checked]
  · intro drv h
    simp [uart_driver_init_checked]
  · simp [uart_driver_init_checked]

/-! ## Shell line editor and history (`shell.c`)

The shell's UART output (echo/redraw bytes) does not affect the edit-line
or history state and is not modelled; `shell.rx.buffer` below is the live
prefix `buffer[0..length)` of the C array, so `length` is its list length. -/

/-- Model of `SHELL_MAX_LENGTH` (shell.h:25). -/
abbrev SHELL_MAX_LENGTH : Nat := 128

/-- Model of `SHELL_HISTORY_SIZE` (shell.h:33). -/
abbrev SHELL_HISTORY_SIZE : Nat := 10

/-- Model of `shell_history_t` (shell.h:42-47). -/
structure shell_history_t where
  commands : List (List Nat)
  current_index : Nat
  count : Nat
  browse_index : Nat
deriving DecidableEq, Repr

/-- Model of `rx_command_t` (shell.h:55-59); `length` is `buffer.length`. -/
structure rx_command_t where
  buffer : List Nat
  cursor_pos : Nat
deriving DecidableEq, Repr

/-- Editor-visible state of `shell_t` (shell.h:68-72). -/
structure shell_t where
  history : shell_history_t
  rx : rx_command_t
deriving DecidableEq, Repr

/-- Model of `shell_add_to_history` (shell.c:150-172): skip empty and consecutive
duplicate commands; store (truncated to SHELL_MAX_LENGTH-1) at
`current_index`, advance it modulo the history size, saturate `count`, and
reset `browse_index` to the new `current_index`. -/
def shell_add_to_history (shell : shell_t) (command : List Nat) : shell_t :=
  if command.length = 0 then shell
  else
    let h := shell.history
    let last_history_index :=
      (h.current_index + SHELL_HISTORY_SIZE - 1) % SHELL_HISTORY_SIZE
    if h.count > 0 ∧ h.commands.getD last_history_index [] = command then shell
    else
      let stored := command.take (SHELL_MAX_LENGTH - 1)
      let commands := h.commands.set h.current_index stored
      let current_index := (h.current_index + 1) % SHELL_HISTORY_SIZE
      let count := if h.count < SHELL_HISTORY_SIZE then h.count + 1 else h.count
      { shell with history := { commands := commands, current_index := current_index,
                                count := count, browse_index := current_index } }

/-- Trailing `'\r'`/`'\n'`/`' '` trimming of `shell_process_command`
(shell.c:216-219). -/
def shell_trim (l : List Nat) : List Nat :=
  (l.reverse.dropWhile (fun c => c == 13 || c == 10 || c == 32)).reverse

/-- Model of `shell_process_command` (shell.c:210-235), its effect on shell state:
trim, ignore empty lines, record in history, then dispatch (the dispatcher
does not touch editor or history state). -/
def shell_process_command (shell : shell_t) (command : List Nat) : shell_t :=
  let trimmed := shell_trim command
  if trimmed.length = 0 then shell
  else shell_add_to_history shell trimmed

/-- Model of `handle_carriage_return` (shell.c:274-286). -/
def handle_carriage_return (shell : shell_t) : shell_t :=
  let s1 := shell_process_command shell shell.rx.buffer
  { history := { s1.history with browse_index := s1.history.current_index },
    rx := { buffer := [], cursor_pos := 0 } }

/-- Model of `handle_printable_character` (shell.c:237-272): insert at the cursor
(memmove right + write), length and cursor advance by one. -/
def handle_printable_character (shell : shell_t) (received_char : Nat) : shell_t :=
  let buf := shell.rx.buffer
  let cp := shell.rx.cursor_pos
  { shell with rx := { buffer := buf.take cp ++ [received_char] ++ buf.drop cp,
                       cursor_pos := cp + 1 } }

/-- Model of `handle_backspace` (shell.c:288-314): delete the byte before the cursor
(memmove left), length and cursor decrease by one; no-op at cursor 0. -/
def handle_backspace (shell : shell_t) : shell_t :=
  if shell.rx.cursor_pos = 0 then shell
  else
    let buf := shell.rx.buffer
    let cp := shell.rx.cursor_pos
    { shell with rx := { buffer := buf.take (cp - 1) ++ buf.drop cp,
                         cursor_pos := cp - 1 } }

/-- Model of `handle_cursor_left` (shell.c:316-323). -/
def handle_cursor_left (shell : shell_t) : shell_t :=
  if shell.rx.cursor_pos = 0 then shell
  else { shell with rx := { shell.rx with cursor_pos := shell.rx.cursor_pos - 1 } }

/-- Model of `handle_cursor_right` (shell.c:325-332). -/
def handle_cursor_right (shell : shell_t) : shell_t :=
  if shell.rx.cursor_pos ≥ shell.rx.buffer.length then shell
  else { shell with rx := { shell.rx with cursor_pos := shell.rx.cursor_pos + 1 } }

/-- Model of `handle_cursor_up` (shell.c:334-357): step `browse_index` one entry
back unless the guard (previous index equal to the oldest index while
already browsing) refuses, then load that history slot into the edit line
with the cursor at its end. -/
def handle_cursor_up (shell : shell_t) : shell_t :=
  if shell.history.count = 0 then shell
  else
    let previous_history_index :=
      (shell.history.browse_index + SHELL_HISTORY_SIZE - 1) % SHELL_HISTORY_SIZE
    let oldest_history_index :=
      if shell.history.count < SHELL_HISTORY_SIZE then 0
      else shell.history.current_index
    if previous_history_index = oldest_history_index ∧
        shell.history.browse_index ≠ shell.history.current_index then shell
    else
      let line := shell.history.commands.getD previous_history_index []
      { history := { shell.history with browse_index := previous_history_index },
        rx := { buffer := line, cursor_pos := line.length } }

/-- Model of `handle_cursor_down` (shell.c:359-388). -/
def handle_cursor_down (shell : shell_t) : shell_t :=
  if shell.history.count = 0 then shell
  else if shell.history.browse_index = shell.history.current_index then
    { shell with rx := { buffer := [], cursor_pos := 0 } }
  else
    let bi := (shell.history.browse_index + 1) % SHELL_HISTORY_SIZE
    if bi = shell.history.current_index then
      { history := { shell.history with browse_index := bi },
        rx := { buffer := [], cursor_pos := 0 } }
    else
      let line := shell.history.commands.getD bi []
      { history := { shell.history with browse_index := bi },
        rx := { buffer := line, cursor_pos := line.length } }

/-- The `shell_task` escape-sequence parser states (shell.c:393-397). -/
inductive shell_parsing_state where
  | normal
  | esc
  | csi
deriving DecidableEq, Repr

/-- Shell state together with the (function-static) parser state. -/
structure shell_task_state where
  shell : shell_t
  parsing_state : shell_parsing_state
deriving DecidableEq, Repr

/-- One iteration of the `shell_task` while-loop (shell.c:401-453) on one
received byte: the overflow check first (discard the whole line unless the
byte is `'\r'` or 127), then the three-state ANSI escape parser. -/
def shell_task_step (s : shell_task_state) (received_byte : Nat) : shell_task_state :=
  if s.shell.rx.buffer.length ≥ SHELL_MAX_LENGTH - 1 ∧ received_byte ≠ 13 ∧
      received_byte ≠ 127 then
    { s with shell := { s.shell with rx := { buffer := [], cursor_pos := 0 } } }
  else
    match s.parsing_state with
    | .normal =>
      if received_byte = 27 then { s with parsing_state := .esc }
      else if received_byte = 13 then
        { s with shell := handle_carriage_return s.shell }
      else if received_byte = 127 ∨ received_byte = 8 then
        { s with shell := handle_backspace s.shell }
      else if 32 ≤ received_byte ∧ received_byte ≤ 126 then
        { s with shell := handle_printable_character s.shell received_byte }
      else s
    | .esc =>
      if received_byte = 91 then { s with parsing_state := .csi }
      else { s with parsing_state := .normal }
    | .csi =>
      let sh :=
        if received_byte = 65 then handle_cursor_up s.shell
        else if received_byte = 66 then handle_cursor_down s.shell
        else if received_byte = 67 then handle_cursor_right s.shell
        else if received_byte = 68 then handle_cursor_left s.shell
        else s.shell
      { shell := sh, parsing_state := .normal }

/-- Processing a byte stream through `shell_task`. -/
def shell_task_run (s : shell_task_state) (bytes : List Nat) : shell_task_state :=
  bytes.foldl shell_task_step s

/-- State after `shell_init` (shell.c:473-488): everything zeroed. -/
def shell_initial : shell_task_state :=
  { shell := { history := { commands := List.replicate SHELL_HISTORY_SIZE [],
                            current_index := 0, count := 0, browse_index := 0 },
               rx := { buffer := [], cursor_pos := 0 } },
    parsing_state := .normal }

/-- C9: from an empty edit line, typing 'a' 'b' 'c' then three backspaces
(byte 127) leaves the editor with an empty line and cursor position 0. -/
theorem C9_abc_three_backspaces_empty :
    (shell_task_run shell_initial [97, 98, 99, 127, 127, 127]).shell.rx.buffer = [] ∧
    (shell_task_run shell_initial [97, 98, 99, 127, 127, 127]).shell.rx.cursor_pos = 0 := by
  decide

/-- C3 evidence: the history-browse behavior the code actually produces.
After entering cmd1, cmd1 (duplicate, suppressed) and cmd2 (so the history
holds two entries), the first up-arrow recalls cmd2, but the second
up-arrow is refused by the oldest-entry guard (the line stays cmd2 — cmd1,
the oldest retained entry, is never recalled) and the following down-arrow
clears the line instead of reconstructing cmd2.  Moreover, with a single
entry cmd1, two up-arrows move PAST the oldest retained entry: the second
recalls the never-written slot 9 and loads an empty line. -/
theorem C3_history_browse_code_behavior :
    (shell_task_run shell_initial
      [99, 109, 100, 49, 13, 99, 109, 100, 49, 13, 99, 109, 100, 50, 13,
       27, 91, 65]).shell.rx.buffer = [99, 109, 100, 50] ∧
    (shell_task_run shell_initial
      [99, 109, 100, 49, 13, 99, 109, 100, 49, 13, 99, 109, 100, 50, 13,
       27, 91, 65, 27, 91, 65]).shell.rx.buffer = [99, 109, 100, 50] ∧
    ¬ (shell_task_run shell_initial
      [99, 109, 100, 49, 13, 99, 109, 100, 49, 13, 99, 109, 100, 50, 13,
       27, 91, 65, 27, 91, 65]).shell.rx.buffer = [99, 109, 100, 49] ∧
    (shell_task_run shell_initial
      [99, 109, 100, 49, 13, 99, 109, 100, 49, 13, 99, 109, 100, 50, 13,
       27, 91, 65, 27, 91, 65, 27, 91, 66]).shell.rx.buffer = [] ∧
    (shell_task_run shell_initial
      [99, 109, 100, 49, 13, 27, 91, 65]).shell.rx.buffer = [99, 109, 100, 49] ∧
    (shell_task_run shell_initial
      [99, 109, 100, 49, 13, 27, 91, 65, 27, 91, 65]).shell.rx.buffer = [] ∧
    (shell_task_run shell_initial
      [99, 109, 100, 49, 13, 27, 91, 65, 27, 91, 65]).shell.history.browse_index = 9 := by
  decide

/-- The C6 edit-line invariant, strengthened with the history-entry length
bound that history recall relies on. -/
def shell_inv (s : shell_task_state) : Prop :=
  s.shell.rx.cursor_pos ≤ s.shell.rx.buffer.length ∧
  s.shell.rx.buffer.length < SHELL_MAX_LENGTH ∧
  ∀ cmd ∈ s.shell.history.commands, cmd.length ≤ SHELL_MAX_LENGTH - 1

theorem list_getD_cases {α : Type} (l : List α) (i : Nat) (d : α) :
    l.getD i d ∈ l ∨ l.getD i d = d := by
  by_cases h : i < l.length
  · left
    rw [List.getD_eq_getElem?_getD, List.getElem?_eq_getElem h]
    simp only [Option.getD_some]
    exact List.getElem_mem h
  · right
    rw [List.getD_eq_getElem?_getD, List.getElem?_eq_none (by omega)]
    rfl

theorem shell_add_to_history_rx (shell : shell_t) (command : List Nat) :
    (shell_add_to_history shell command).rx = shell.rx := by
  unfold shell_add_to_history
  split
  · rfl
  · dsimp only
    split
    · rfl
    · rfl

theorem shell_add_to_history_commands (shell : shell_t) (command : List Nat)
    (h : ∀ cmd ∈ shell.history.commands, cmd.length ≤ SHELL_MAX_LENGTH - 1) :
    ∀ cmd ∈ (shell_add_to_history shell command).history.commands,
      cmd.length ≤ SHELL_MAX_LENGTH - 1 := by
  unfold shell_add_to_history
  split
  · exact h
  · dsimp only
    split
    · exact h
    · intro cmd hc
      rcases List.mem_or_eq_of_mem_set hc with h1 | h1
      · exact h cmd h1
      · subst h1
        simp

theorem shell_process_command_commands (shell : shell_t) (command : List Nat)
    (h : ∀ cmd ∈ shell.history.commands, cmd.length ≤ SHELL_MAX_LENGTH - 1) :
    ∀ cmd ∈ (shell_process_command shell command).history.commands,
      cmd.length ≤ SHELL_MAX_LENGTH - 1 := by
  unfold shell_process_command
  dsimp only
  split
  · exact h
  · exact shell_add_to_history_commands shell _ h

theorem handle_carriage_return_inv (shell : shell_t)
    (h : ∀ cmd ∈ shell.history.commands, cmd.length ≤ SHELL_MAX_LENGTH - 1) :
    (handle_carriage_return shell).rx = { buffer := [], cursor_pos := 0 } ∧
    ∀ cmd ∈ (handle_carriage_return shell).history.commands,
      cmd.length ≤ SHELL_MAX_LENGTH - 1 := by
  refine ⟨rfl, ?_⟩
  exact shell_process_command_commands shell _ h

theorem handle_printable_inv (shell : shell_t) (c : Nat)
    (h1 : shell.rx.cursor_pos ≤ shell.rx.buffer.length)
    (h2 : shell.rx.buffer.length < SHELL_MAX_LENGTH - 1) :
    (handle_printable_character shell c).rx.cursor_pos ≤
      (handle_printable_character shell c).rx.buffer.length ∧
    (handle_printable_character shell c).rx.buffer.length < SHELL_MAX_LENGTH ∧
    (handle_printable_character shell c).history = shell.history := by
  unfold handle_printable_character
  refine ⟨?_, ?_, rfl⟩ <;>
    simp only [List.length_append, List.length_take, List.length_drop,
      List.length_cons, List.length_nil] <;>
    omega

theorem handle_backspace_inv (shell : shell_t)
    (h1 : shell.rx.cursor_pos ≤ shell.rx.buffer.length)
    (h2 : shell.rx.buffer.length < SHELL_MAX_LENGTH) :
    (handle_backspace shell).rx.cursor_pos ≤ (handle_backspace shell).rx.buffer.length ∧
    (handle_backspace shell).rx.buffer.length < SHELL_MAX_LENGTH ∧
    (handle_backspace shell).history = shell.history := by
  unfold handle_backspace
  split
  · exact ⟨h1, h2, rfl⟩
  · refine ⟨?_, ?_, rfl⟩ <;>
      simp only [List.length_append, List.length_take, List.length_drop] <;>
      omega

theorem handle_cursor_up_inv (shell : shell_t)
    (h1 : shell.rx.cursor_pos ≤ shell.rx.buffer.length)
    (h2 : shell.rx.buffer.length < SHELL_MAX_LENGTH)
    (h3 : ∀ cmd ∈ shell.history.commands, cmd.length ≤ SHELL_MAX_LENGTH - 1) :
    (handle_cursor_up shell).rx.cursor_pos ≤ (handle_cursor_up shell).rx.buffer.length ∧
    (handle_cursor_up shell).rx.buffer.length < SHELL_MAX_LENGTH ∧
    (handle_cursor_up shell).history.commands = shell.history.commands := by
  have hline : ∀ i : Nat,
      (shell.history.commands.getD i []).length ≤ SHELL_MAX_LENGTH - 1 := by
    intro i
    rcases list_getD_cases shell.history.commands i [] with hm | hd
    · exact h3 _ hm
    · rw [hd]; simp
  unfold handle_cursor_up
  split
  · exact ⟨h1, h2, rfl⟩
  · dsimp only
    split <;> try split
    all_goals
      first
        | exact ⟨h1, h2, rfl⟩
        | exact ⟨Nat.le_refl _,
            by have hx := hline ((shell.history.browse_index +
              SHELL_HISTORY_SIZE - 1) % SHELL_HISTORY_SIZE); dsimp only; omega, rfl⟩

theorem handle_cursor_down_inv (shell : shell_t)
    (h1 : shell.rx.cursor_pos ≤ shell.rx.buffer.length)
    (h2 : shell.rx.buffer.length < SHELL_MAX_LENGTH)
    (h3 : ∀ cmd ∈ shell.history.commands, cmd.length ≤ SHELL_MAX_LENGTH - 1) :
    (handle_cursor_down shell).rx.cursor_pos ≤ (handle_cursor_down shell).rx.buffer.length ∧
    (handle_cursor_down shell).rx.buffer.length < SHELL_MAX_LENGTH ∧
    (handle_cursor_down shell).history.commands = shell.history.commands := by
  have hline : ∀ i : Nat,
      (shell.history.commands.getD i []).length ≤ SHELL_MAX_LENGTH - 1 := by
    intro i
    rcases list_getD_cases shell.history.commands i [] with hm | hd
    · exact h3 _ hm
    · rw [hd]; simp
  unfold handle_cursor_down
  split
  · exact ⟨h1, h2, rfl⟩
  · split
    · exact ⟨Nat.le_refl _, by dsimp only; simp, rfl⟩
    · dsimp only
      split
      · exact ⟨Nat.le_refl _, by dsimp only; simp, rfl⟩
      · exact ⟨Nat.le_refl _,
          by have hx := hline ((shell.history.browse_index + 1) %
            SHELL_HISTORY_SIZE); dsimp only; omega, rfl⟩

theorem shell_task_step_inv (s : shell_task_state) (b : Nat) (h : shell_inv s) :
    shell_inv (shell_task_step s b) := by
  obtain ⟨h1, h2, h3⟩ := h
  unfold shell_inv
  unfold shell_task_step
  split
  · exact ⟨Nat.le_refl _, by simp, h3⟩
  · next hnof =>
    split
    · -- normal state
      split
      · exact ⟨h1, h2, h3⟩
      · split
        · obtain ⟨hc1, hc2⟩ := handle_carriage_return_inv s.shell h3
          refine ⟨?_, ?_, hc2⟩
          · show (handle_carriage_return s.shell).rx.cursor_pos ≤
              (handle_carriage_return s.shell).rx.buffer.length
            rw [hc1]
            simp
          · show (handle_carriage_return s.shell).rx.buffer.length < SHELL_MAX_LENGTH
            rw [hc1]
            simp
        · split
          · obtain ⟨hb1, hb2, hb3⟩ := handle_backspace_inv s.shell h1 h2
            exact ⟨hb1, hb2, by rw [hb3]; exact h3⟩
          · split
            · next hb32 =>
              have hlen : s.shell.rx.buffer.length < SHELL_MAX_LENGTH - 1 := by
                rcases Nat.lt_or_ge s.shell.rx.buffer.length (SHELL_MAX_LENGTH - 1) with hl | hl
                · exact hl
                · exfalso
                  exact hnof ⟨hl, by omega, by omega⟩
              obtain ⟨hp1, hp2, hp3⟩ := handle_printable_inv s.shell b h1 hlen
              exact ⟨hp1, hp2, by rw [hp3]; exact h3⟩
            · exact ⟨h1, h2, h3⟩
    · -- esc state
      split
      · exact ⟨h1, h2, h3⟩
      · exact ⟨h1, h2, h3⟩
    · -- csi state
      split
      · obtain ⟨hu1, hu2, hu3⟩ := handle_cursor_up_inv s.shell h1 h2 h3
        exact ⟨hu1, hu2, by rw [hu3]; exact h3⟩
      · split
        · obtain ⟨hd1, hd2, hd3⟩ := handle_cursor_down_inv s.shell h1 h2 h3
          exact ⟨hd1, hd2, by rw [hd3]; exact h3⟩
        · split
          · unfold handle_cursor_right
            split
            · exact ⟨h1, h2, h3⟩
            · dsimp only
              exact ⟨by omega, h2, h3⟩
          · split
            · unfold handle_cursor_left
              split
              · exact ⟨h1, h2, h3⟩
              · dsimp only
                exact ⟨by omega, h2, h3⟩
            · exact ⟨h1, h2, h3⟩

theorem shell_task_run_inv (bytes : List Nat) :
    ∀ s : shell_task_state, shell_inv s → shell_inv (shell_task_run s bytes) := by
  induction bytes with
  | nil => intro s h; exact h
  | cons b bs ih =>
    intro s h
    exact ih (shell_task_step s b) (shell_task_step_inv s b h)

/-- C6: starting from the freshly initialized shell, after processing any
byte stream through the `shell_task` loop the edit-line invariant
`cursor_pos ≤ length < SHELL_MAX_LENGTH` holds (hence after every processed
byte, every prefix of the stream being such a stream). -/
theorem C6_edit_line_invariant (bytes : List Nat) :
    (shell_task_run shell_initial bytes).shell.rx.cursor_pos ≤
      (shell_task_run shell_initial bytes).shell.rx.buffer.length ∧
    (shell_task_run shell_initial bytes).shell.rx.buffer.length < SHELL_MAX_LENGTH := by
  have h0 : shell_inv shell_initial := by
    unfold shell_inv
    exact ⟨Nat.le_refl 0, by decide, by decide⟩
  obtain ⟨g1, g2, _⟩ := shell_task_run_inv bytes shell_initial h0
  exact ⟨g1, g2⟩

/-! ## CLI parser tab completion (`cli_parser.c:308-366`)

`strncmp(a, b, strlen(b)) == 0` holds exactly when `b` is a prefix of `a`,
and `strncmp(a, b, strlen(a)) == 0` exactly when `a` is a prefix of `b`;
the two loops below mirror the two loops of the C function.  The second
component of the result is the content of the caller's completion buffer
(initialized to the input, overwritten only on a single match); the
side-effect of routing `"<name> help"` through `cli_parser_execute` in the
help-shown case prints help text and does not change parser state. -/

/-- Model of `tab_completion_result_t` (cli_parser.h). -/
inductive tab_completion_result_t where
  | no_match
  | single_match
  | help_shown
  | multiple_matches
deriving DecidableEq, Repr

/-- Byte-wise prefix test; `strncmp(b, a, strlen(a)) == 0` holds exactly
when `a` is a prefix of `b`. -/
def str_isPrefixOf (a b : String) : Bool :=
  a.toList.isPrefixOf b.toList

/-- Model of `available_commands` (cli_parser.c:103). -/
def available_commands : List String :=
  ["help", "clear", "history", "version", "led"]

/-- Model of `cli_parser_handle_tab_completion` (cli_parser.c:308-366): first an
exact-or-extends scan judged by each command's own length (`find?` of a
command that is a prefix of the input), then a prefix-candidate count with
the last candidate retained for the single-match case. -/
def cli_parser_handle_tab_completion (input : String) :
    tab_completion_result_t × String :=
  match available_commands.find? (fun cmd => str_isPrefixOf cmd input) with
  | some _ => (.help_shown, input)
  | none =>
    let candidates := available_commands.filter (fun cmd => str_isPrefixOf input cmd)
    if candidates.length = 1 then (.single_match, candidates.getLastD input)
    else if candidates.length > 1 then (.multiple_matches, input)
    else (.no_match, input)

/-- C4: for every input, the completion result is HelpShown when some full
command name is a prefix of the input (judged by the command's own length);
otherwise the number of commands having the input as a prefix classifies
the result as NoMatch (zero), SingleMatch with the full matching name in
the caller's buffer (one), or MultipleMatches (more than one); and
completing "ver" yields SingleMatch with buffer "version". -/
theorem C4_tab_completion_classification :
    (∀ input : String,
      ((∃ cmd ∈ available_commands, str_isPrefixOf cmd input = true) →
        (cli_parser_handle_tab_completion input).1 = .help_shown) ∧
      ((∀ cmd ∈ available_commands, str_isPrefixOf cmd input = false) →
        (((available_commands.filter (fun cmd => str_isPrefixOf input cmd)).length = 0 →
            cli_parser_handle_tab_completion input = (.no_match, input)) ∧
         ((available_commands.filter (fun cmd => str_isPrefixOf input cmd)).length = 1 →
            (cli_parser_handle_tab_completion input).1 = .single_match ∧
            (cli_parser_handle_tab_completion input).2 ∈ available_commands ∧
            str_isPrefixOf input (cli_parser_handle_tab_completion input).2 = true) ∧
         ((available_commands.filter (fun cmd => str_isPrefixOf input cmd)).length > 1 →
            cli_parser_handle_tab_completion input = (.multiple_matches, input))))) ∧
    cli_parser_handle_tab_completion "ver" = (.single_match, "version") := by
  constructor
  · intro input
    constructor
    · rintro ⟨cmd, hmem, hpre⟩
      cases hfind : available_commands.find? (fun c => str_isPrefixOf c input) with
      | none =>
        exfalso
        have hno := List.find?_eq_none.mp hfind cmd hmem
        simp [hpre] at hno
      | some c =>
        simp [cli_parser_handle_tab_completion, hfind]
    · intro hall
      have hfind : available_commands.find? (fun c => str_isPrefixOf c input) = none := by
        apply List.find?_eq_none.mpr
        intro x hx
        simp [hall x hx]
      refine ⟨?_, ?_, ?_⟩
      · intro hlen
        simp [cli_parser_handle_tab_completion, hfind, hlen]
      · intro hlen
        obtain ⟨m, hm⟩ := List.length_eq_one.mp hlen
        have hmm : m ∈ available_commands.filter (fun cmd => str_isPrefixOf input cmd) := by
          rw [hm]
          simp
        rw [List.mem_filter] at hmm
        refine ⟨?_, ?_, ?_⟩
        · simp [cli_parser_handle_tab_completion, hfind, hlen]
        · simp only [cli_parser_handle_tab_completion, hfind, hlen, hm]
          simp
          exact hmm.1
        · simp only [cli_parser_handle_tab_completion, hfind, hlen, hm]
          simp
          exact hmm.2
      · intro hlen
        simp only [cli_parser_handle_tab_completion, hfind]
        rw [if_neg (by omega), if_pos hlen]
  · decide

/-- Witness for C4 at input "version" (an exact command name, so the
exact-or-extends branch fires and help is shown). -/
theorem C4_witness :
    (∃ cmd ∈ available_commands, str_isPrefixOf cmd "version" = true) ∧
    (cli_parser_handle_tab_completion "version").1 = tab_completion_result_t.help_shown :=
  ⟨by decide, (C4_tab_completion_classification.1 "version").1 (by decide)⟩
